import Mathlib

/-
Verification of the changeset extraction and aggregation pipeline of
wp-trac-log-parse (parse_logs.js and the variant script kept alongside it).

Strings are modelled as lists of characters (`Str`); the JavaScript regex
operations of the scripts are embedded as explicit recursive scans with the
exact match semantics of the source regexes (leftmost match, greedy
quantifiers, `.` not matching a newline, non-global replacement unless the
source regex carries the `g` flag).
-/

abbrev Str := List Char

/-- ASCII model of the JavaScript whitespace class `\s` (and of the
characters removed by `String.prototype.trim`). -/
def isWs (c : Char) : Bool :=
  c = ' ' || c = '\t' || c = '\n' || c = '\r' || c = '\x0b' || c = '\x0c'

/-- ASCII model of `String.prototype.toLowerCase`. -/
def lowerChar (c : Char) : Char :=
  if 'A' ≤ c ∧ c ≤ 'Z' then Char.ofNat (c.toNat + 32) else c

def lowerStr (s : Str) : Str := s.map lowerChar

/-- Left half of `String.prototype.trim`. -/
def trimL (s : Str) : Str := s.dropWhile isWs

/-- Right half of `String.prototype.trim`. -/
def trimR (s : Str) : Str := (s.reverse.dropWhile isWs).reverse

/-- `String.prototype.trim`: strip whitespace from both ends. -/
def trim (s : Str) : Str := trimR (trimL s)

/-- Auxiliary scan for `collapse`: `n` counts the newlines of the run
currently being read; a run of `n` newlines is emitted as `min n 2`
newlines, which is exactly `s.replace(/\n\n\n+/g, '\n\n')` (runs of one or
two newlines are untouched, longer runs become two). -/
def collapseAux : Nat → Str → Str
  | n, [] => List.replicate (min n 2) '\n'
  | n, c :: rest =>
    if c = '\n' then collapseAux (n + 1) rest
    else List.replicate (min n 2) '\n' ++ c :: collapseAux 0 rest

/-- parse_logs.js line 95: `replace(/\n\n\n+/g, '\n\n')`. -/
def collapse (s : Str) : Str := collapseAux 0 s

/-- parse_logs.js line 79: `replace(/[\n|, ]Fixes(.*)/i, '')`.
Non-global: only the leftmost match is removed.  The match is one of the
characters newline, bar, comma or space, then `Fixes` case-insensitively,
then the rest of that line (`.` does not match a newline). -/
def removeFixes : Str → Str
  | [] => []
  | c :: rest =>
    if (c = '\n' ∨ c = '|' ∨ c = ',' ∨ c = ' ') ∧
        lowerStr (rest.take 5) = "fixes".toList then
      (rest.drop 5).dropWhile (· ≠ '\n')
    else c :: removeFixes rest

/-- parse_logs.js line 80: `replace(/\nSee(.*)/i, '')` (non-global). -/
def removeSee : Str → Str
  | [] => []
  | c :: rest =>
    if c = '\n' ∧ lowerStr (rest.take 3) = "see".toList then
      (rest.drop 3).dropWhile (· ≠ '\n')
    else c :: removeSee rest

/-- Leftmost match of parse_logs.js line 83 `propsRegex = /\nProps(.*)./i`.
A position matches when a newline is followed by `Props`
(case-insensitively) and the remainder of that line is non-empty (the
greedy `(.*)` backtracks one character so that the final `.` can match).
Returns `(before, group1, after)` where the whole match is the newline,
the marker and the whole rest of the line, and `group1` is that line
without its last character. -/
def splitPropsMain : Str → Option (Str × Str × Str)
  | [] => none
  | c :: rest =>
    if c = '\n' ∧ lowerStr (rest.take 5) = "props".toList ∧
        (rest.drop 5).takeWhile (· ≠ '\n') ≠ [] then
      some ([], ((rest.drop 5).takeWhile (· ≠ '\n')).dropLast,
        (rest.drop 5).drop (((rest.drop 5).takeWhile (· ≠ '\n')).length))
    else
      match splitPropsMain rest with
      | some (b, g, a) => some (c :: b, g, a)
      | none => none

/-- One step of `split(/\s*,\s*/)`: the leftmost match is built around the
first comma; the greedy `\s*` on each side absorbs the whitespace run
adjacent to that comma.  Fuel-driven recursion (each step consumes at
least the comma, so `s.length + 1` fuel always suffices). -/
def splitCommasF : Nat → Str → List Str
  | 0, s => [s]
  | fuel + 1, s =>
    if s.any (· = ',') then
      trimR (s.takeWhile (· ≠ ',')) ::
        splitCommasF fuel ((((s.dropWhile (· ≠ ',')).drop 1).dropWhile isWs))
    else [s]

/-- parse_logs.js line 88: `split(/\s*,\s*/)`. -/
def splitCommas (s : Str) : List Str := splitCommasF (s.length + 1) s

/-- parse_logs.js lines 83-92: match `propsRegex`, turn group 1 into the
props list (`trim` then `split(/\s*,\s*/)`), and remove the match from the
description.  When there is no match the props list is empty and the text
is returned unchanged. -/
def extractPropsMain (s : Str) : List Str × Str :=
  match splitPropsMain s with
  | some (b, g, a) => (splitCommas (trim g), b ++ a)
  | none => ([], s)

/-- parse_logs.js lines 79-96 applied to the flattened description cell:
strip the first Fixes clause, the first See clause and the first Props
clause, collapse blank-line runs, and trim. -/
def procDesc (s : Str) : Str :=
  trim (collapse ((extractPropsMain (removeSee (removeFixes s))).2))

/-- parse_logs.js line 57: `trim().replace(/@(.*)/, '[$1]')` — the first
`@` and the rest of its line are rewritten into brackets. -/
def revFormatAux : Str → Str
  | [] => []
  | c :: rest =>
    if c = '@' then
      '[' :: (rest.takeWhile (· ≠ '\n') ++ ']' :: rest.dropWhile (· ≠ '\n'))
    else c :: revFormatAux rest

def revFormat (s : Str) : Str := revFormatAux (trim s)

/-- parse_logs.js line 71: `trim().replace(/#(.*)/, '$1')` — the match is
the first `#` plus the rest of its line and the replacement is that same
rest of line, so exactly the first `#` is deleted. -/
def ticketFormatAux : Str → Str
  | [] => []
  | c :: rest => if c = '#' then rest else c :: ticketFormatAux rest

def ticketFormat (s : Str) : Str := ticketFormatAux (trim s)

/-- One verbose log table row, reduced to the fields the script reads from
it: the text of its `td.rev` and `td.author` cells, the flattened text of
its `td.log` cell (after the `tt` → backtick rewrite), and the texts of
its `a.ticket` links in order of appearance. -/
structure Row where
  rev : Str
  author : Str
  logText : Str
  tickets : List Str
deriving DecidableEq

/-- The record built by parse_logs.js lines 48-98 (field names follow the
script: `component` is the list filled in later by `gatherComponents`). -/
structure Changeset where
  revision : Str
  author : Str
  description : Str
  related : List Str
  component : List Str
  props : List Str
deriving DecidableEq

/-- parse_logs.js lines 57-96: build one changeset from a metadata row and
the following description row. -/
def mkChangeset (r1 r2 : Row) : Changeset :=
  { revision := revFormat r1.rev
    author := trim r1.author
    description := procDesc r2.logText
    related := r2.tickets.map ticketFormat
    component := []
    props := (extractPropsMain (removeSee (removeFixes r2.logText))).1 }

/-- parse_logs.js lines 47-99: iterate the rows two at a time; when the
second row of a pair is missing (`logEntries[i + 1] == null`) the loop
breaks, keeping the changesets already built. -/
def buildChangesets : List Row → List Changeset
  | r1 :: r2 :: rest => mkChangeset r1 r2 :: buildChangesets rest
  | _ => []

/-- Leftmost match of the variant script's `propsRegex =
/(?:Props:?\s+)(.*)\.?/mi` (src/unnamed/part_001 line 158), attempted at
one position: `Props` case-insensitively, an optional colon, at least one
whitespace character (the greedy `\s+` also crosses newlines), then group
1 is the rest of the line (`\.?` is optional, so the greedy `(.*)` keeps a
final period inside the group).  Returns `(group1, afterMatch)`. -/
def tryPropsAltHere (s : Str) : Option (Str × Str) :=
  if lowerStr (s.take 5) = "props".toList then
    match (s.drop 5).head? with
    | some ':' =>
      if (((s.drop 5).drop 1).head?.map isWs).getD false then
        some ((((s.drop 5).drop 1).dropWhile isWs).takeWhile (· ≠ '\n'),
          (((s.drop 5).drop 1).dropWhile isWs).drop
            (((((s.drop 5).drop 1).dropWhile isWs).takeWhile (· ≠ '\n')).length))
      else none
    | _ =>
      if ((s.drop 5).head?.map isWs).getD false then
        some (((s.drop 5).dropWhile isWs).takeWhile (· ≠ '\n'),
          ((s.drop 5).dropWhile isWs).drop
            ((((s.drop 5).dropWhile isWs).takeWhile (· ≠ '\n')).length))
      else none
  else none

/-- Leftmost-match scan for the variant `propsRegex`; returns
`(before, group1, after)`. -/
def matchPropsAlt : Str → Option (Str × Str × Str)
  | [] => none
  | c :: rest =>
    match tryPropsAltHere (c :: rest) with
    | some (g, after) => some ([], g, after)
    | none =>
      match matchPropsAlt rest with
      | some (b, g, a) => some (c :: b, g, a)
      | none => none

/-- Global replacement `replace(/(for.*(,))/ig, '')` of `cleanProps`
(src/unnamed/part_001 line 283).  At a case-insensitive `for` the greedy
`.*` runs to the last comma of the current line (if any); the match is
removed and scanning resumes right after it.  Fuel-driven (each step
consumes at least one character of the remaining text). -/
def stripForCommaF : Nat → Str → Str
  | 0, s => s
  | _ + 1, [] => []
  | fuel + 1, c :: rest =>
    if lowerStr ((c :: rest).take 3) = "for".toList ∧
        (((c :: rest).drop 3).takeWhile (· ≠ '\n')).any (· = ',') then
      stripForCommaF fuel
        (((((c :: rest).drop 3).takeWhile (· ≠ '\n')).reverse.takeWhile
            (· ≠ ',')).reverse ++
          ((c :: rest).drop 3).drop
            ((((c :: rest).drop 3).takeWhile (· ≠ '\n')).length))
    else c :: stripForCommaF fuel rest

def stripForComma (s : Str) : Str := stripForCommaF s.length s

/-- Non-global, case-sensitive `replace(/(for.*(\.))/, '')` of
`cleanProps` (src/unnamed/part_001 line 284): at the leftmost lowercase
`for` whose line still holds a period, remove through the last period of
that line. -/
def stripForPeriod : Str → Str
  | [] => []
  | c :: rest =>
    if (c :: rest).take 3 = "for".toList ∧
        (((c :: rest).drop 3).takeWhile (· ≠ '\n')).any (· = '.') then
      ((((c :: rest).drop 3).takeWhile (· ≠ '\n')).reverse.takeWhile
          (· ≠ '.')).reverse ++
        ((c :: rest).drop 3).drop
          ((((c :: rest).drop 3).takeWhile (· ≠ '\n')).length)
    else c :: stripForPeriod rest

/-- `cleanProps` (src/unnamed/part_001 lines 281-291): strip `for …,` and
`for …​.` qualifier phrases, drop all periods, trim, turn every remaining
whitespace character into a comma, split on `/\s*,\s*/` and drop empty
tokens (`_.without(_props, '')`). -/
def cleanProps (s : Str) : List Str :=
  (splitCommas
      ((trim ((stripForPeriod (stripForComma s)).filter (· ≠ '.'))).map
        (fun c => if isWs c then ',' else c))).filter (· ≠ [])

/-- The variant script's props extraction (src/unnamed/part_001 lines
158-173): match the variant regex, clean group 1 with `cleanProps`, and
remove the matched clause from the text. -/
def extractPropsAlt (s : Str) : List Str × Str :=
  match matchPropsAlt s with
  | some (b, g, a) => (cleanProps g, b ++ a)
  | none => ([], s)

/-- `Array.prototype.join(sep)`. -/
def joinList (sep : Str) : List Str → Str
  | [] => []
  | [x] => x
  | x :: xs => x ++ sep ++ joinList sep xs

/-- The bucket key computed by `buildOutput` (parse_logs.js lines
145-155).  `category = item.component` is an array, and `!category` is
false for every array (JavaScript arrays are truthy, even empty ones), so
the `category = 'Misc'` fallback on line 148 can never run; the array is
then used as an object key, which coerces it to its string form
`join(',')`. -/
def bucketKey (c : Changeset) : Str := joinList [','] c.component

/-- Insertion into the `categories` object: appending to the entry when
the key exists, otherwise creating the key at the end (string keys of a
JavaScript object enumerate in insertion order; none of the keys produced
here are canonical array indices). -/
def insertBucket : List (Str × List Changeset) → Str → Changeset →
    List (Str × List Changeset)
  | [], k, c => [(k, [c])]
  | (k0, items) :: rest, k, c =>
    if k0 = k then (k0, items ++ [c]) :: rest
    else (k0, items) :: insertBucket rest k c

/-- parse_logs.js lines 143-157: one traversal of the changesets filling
the `categories` object. -/
def bucketsOf (cs : List Changeset) : List (Str × List Changeset) :=
  cs.foldl (fun acc c => insertBucket acc (bucketKey c) c) []

def bucketKeys (cs : List Changeset) : List Str :=
  (bucketsOf cs).map Prod.fst

/-- parse_logs.js lines 163-166: one rendered list entry. -/
def entryLine (c : Changeset) : Str :=
  "* ".toList ++ trim c.description ++ " ".toList ++ c.revision ++
    " #".toList ++ joinList ", #".toList c.related ++ "\n".toList

/-- The `### ` heading of a section (parse_logs.js line 160) shows
`category[0].component`, the component array of the first changeset of the
bucket, string-coerced to its comma join. -/
def headComp : List Changeset → Str
  | [] => []
  | c :: _ => joinList [','] c.component

def renderBucket (p : Str × List Changeset) : Str :=
  "### ".toList ++ headComp p.2 ++ "\n".toList ++
    (p.2.map entryLine).flatten

/-- parse_logs.js lines 159-178, rendering part: the concatenated
sections in bucket-creation order. -/
def changesetOutput (cs : List Changeset) : Str :=
  ((bucketsOf cs).map renderBucket).flatten

/-- parse_logs.js lines 168-175: inside the same loop, every changeset
contributes its author and then (when non-empty) its props, in bucket
iteration order. -/
def creditRaw (cs : List Changeset) : List Str :=
  (((bucketsOf cs).map Prod.snd).flatten.map
    (fun c => c.author :: (if c.props.length ≠ 0 then c.props else []))).flatten

/-- Code-point lexicographic order, the ASCII model of `localeCompare`. -/
def lexLt : Str → Str → Bool
  | [], [] => false
  | [], _ :: _ => true
  | _ :: _, [] => false
  | a :: as, b :: bs => if a = b then lexLt as bs else decide (a < b)

/-- Stable insertion step for the comparator
`(a, b) => a.toLowerCase().localeCompare(b.toLowerCase())`: a new element
moves past existing ones only while they compare strictly below it, so it
lands after every element with an equal key. -/
def insSorted (x : Str) : List Str → List Str
  | [] => [x]
  | y :: ys =>
    if lexLt (lowerStr y) (lowerStr x) then y :: insSorted x ys
    else x :: y :: ys

/-- parse_logs.js line 181: the stable comparator sort of the credit
list. -/
def sortCI : List Str → List Str
  | [] => []
  | x :: xs => insSorted x (sortCI xs)

/-- `_.uniq(array, true)`: each element is compared with its predecessor
in the traversal under strict `!==` and dropped when identical. -/
def uniqAux (seen : Str) : List Str → List Str
  | [] => []
  | y :: ys => if y = seen then uniqAux y ys else y :: uniqAux y ys

def uniqSorted : List Str → List Str
  | [] => []
  | x :: xs => x :: uniqAux x xs

/-- `_.last`; on an empty array underscore yields `undefined`, which
`util.format('%s', …)` prints as the string below. -/
def lastD : List Str → Str
  | [] => "undefined".toList
  | [x] => x
  | _ :: x :: xs => lastD (x :: xs)

/-- `_.without(props, _.last(props))`: every element strictly equal to the
last one is removed. -/
def withoutAll (l : List Str) (x : Str) : List Str := l.filter (· ≠ x)

/-- parse_logs.js line 185: the formatted credit line. -/
def propsLine (l : List Str) : Str :=
  "Thanks to @".toList ++ joinList ", @".toList (withoutAll l (lastD l)) ++
    ", and @".toList ++ lastD l ++ " for their contributions!".toList

/-- parse_logs.js lines 181-185: sort, deduplicate and format the credit
list of a changeset run. -/
def creditsOf (cs : List Changeset) : List Str :=
  uniqSorted (sortCI (creditRaw cs))

def propsOutput (cs : List Changeset) : Str := propsLine (creditsOf cs)

/-- `gatherComponents` (parse_logs.js lines 103-133) with the network as
an injected `fetch`: for every id in `related`, a successful fetch
appends the reported component, a failed fetch (error or non-200) is
skipped and the run continues with the next id and the next changeset.
The per-changeset fetches are modelled in `related` order. -/
def resolveComponents (fetch : Str → Option Str) (cs : List Changeset) :
    List Changeset :=
  cs.map (fun c =>
    { c with component := c.component ++ c.related.filterMap fetch })

/-- Whether some occurrence of `Props` (case-insensitively) is immediately
preceded by a newline character — the necessary condition for
`propsRegex = /\nProps(.*)./i` to find a match anywhere in the text. -/
def hasNlProps : Str → Bool
  | [] => false
  | c :: rest =>
    (decide (c = '\n') && decide (lowerStr (rest.take 5) = "props".toList)) ||
      hasNlProps rest

/-- Sample metadata row. -/
def rA : Row := { rev := "@1".toList, author := "ann".toList, logText := [], tickets := [] }

/-- Sample description row. -/
def rB : Row :=
  { rev := [], author := [], logText := "hello".toList, tickets := ["#7".toList] }

/-- Sample trailing metadata row with no matching description row. -/
def rC : Row := { rev := "@2".toList, author := "bo".toList, logText := [], tickets := [] }

/-- Sample changeset: single author, no props. -/
def cAlice : Changeset :=
  { revision := "[5]".toList, author := "Alice".toList, description := "d".toList,
    related := [], component := [], props := [] }

/-- Sample changeset with one resolved component. -/
def eEditor : Changeset :=
  { revision := "[1]".toList, author := "a".toList, description := "x".toList,
    related := ["11".toList], component := ["Editor".toList], props := [] }

/-- Sample changeset with no resolved components. -/
def eNoComp : Changeset :=
  { revision := "[2]".toList, author := "b".toList, description := "y".toList,
    related := [], component := [], props := [] }

/-- Sample changeset whose only related issue will fail to fetch. -/
def cFail : Changeset :=
  { revision := "[3]".toList, author := "c".toList, description := "p".toList,
    related := ["101".toList], component := [], props := [] }

/-- Sample changeset whose related issue fetch succeeds. -/
def cOk : Changeset :=
  { revision := "[4]".toList, author := "d".toList, description := "q".toList,
    related := ["102".toList], component := [], props := [] }

/-- Sample fetch: issue 102 resolves to Editor, everything else errors. -/
def fetchOne : Str → Option Str :=
  fun t => if t = "102".toList then some ("Editor".toList) else none

/-- Sample changeset with an empty `related` list. -/
def cBare : Changeset :=
  { revision := "[7]".toList, author := "ann".toList, description := "d".toList,
    related := [], component := [], props := [] }

/-- A run of three newlines, the pattern excluded by `collapse`. -/
def nl3 : Str := ['\n', '\n', '\n']

lemma nl3_not_infix_short {l : Str} (h : l.length ≤ 2) : ¬ nl3 <:+: l := by
  intro hin
  have h3 := List.IsInfix.length_le hin
  simp [nl3] at h3
  omega

lemma nl3_infix_peel {c : Char} (hc : ¬ c = '\n') {t : Str}
    (h : nl3 <:+: c :: t) : nl3 <:+: t := by
  rcases List.infix_cons_iff.mp h with hp | ht
  · exact absurd (List.cons_prefix_cons.mp hp).1.symm hc
  · exact ht

lemma nl3_peel_replicate {n : Nat} {c : Char} (hc : ¬ c = '\n') {t : Str}
    (h : nl3 <:+: List.replicate (min n 2) '\n' ++ c :: t) : nl3 <:+: t := by
  have hk : min n 2 = 0 ∨ min n 2 = 1 ∨ min n 2 = 2 := by omega
  rcases hk with h0 | h1 | h2
  · rw [h0] at h
    simp only [List.replicate, List.nil_append] at h
    exact nl3_infix_peel hc h
  · rw [h1] at h
    rw [show List.replicate 1 '\n' = ['\n'] from rfl] at h
    simp only [List.cons_append, List.nil_append] at h
    rcases List.infix_cons_iff.mp h with hp | h'
    · exact absurd (List.cons_prefix_cons.mp (List.cons_prefix_cons.mp hp).2).1.symm hc
    · exact nl3_infix_peel hc h'
  · rw [h2] at h
    rw [show List.replicate 2 '\n' = ['\n', '\n'] from rfl] at h
    simp only [List.cons_append, List.nil_append] at h
    rcases List.infix_cons_iff.mp h with hp | h'
    · exact absurd
        (List.cons_prefix_cons.mp
          (List.cons_prefix_cons.mp (List.cons_prefix_cons.mp hp).2).2).1.symm hc
    · rcases List.infix_cons_iff.mp h' with hp' | h''
      · exact absurd (List.cons_prefix_cons.mp (List.cons_prefix_cons.mp hp').2).1.symm hc
      · exact nl3_infix_peel hc h''

lemma collapseAux_no_nl3 (s : Str) : ∀ n, ¬ nl3 <:+: collapseAux n s := by
  induction s with
  | nil =>
    intro n h
    simp only [collapseAux] at h
    exact nl3_not_infix_short (by simp) h
  | cons c rest IH =>
    intro n h
    by_cases hc : c = '\n'
    · simp only [collapseAux, if_pos hc] at h
      exact IH (n + 1) h
    · simp only [collapseAux, if_neg hc] at h
      exact IH 0 (nl3_peel_replicate hc h)

lemma replicate_cons_eq (n : Nat) (a : Char) (l : Str) :
    List.replicate n a ++ a :: l = List.replicate (n + 1) a ++ l := by
  induction n with
  | zero => simp
  | succ m IH => simp [List.replicate_succ, IH]

lemma collapseAux_of_no_nl3 (s : Str) : ∀ n, n ≤ 2 →
    ¬ nl3 <:+: (List.replicate n '\n' ++ s) →
    collapseAux n s = List.replicate n '\n' ++ s := by
  induction s with
  | nil =>
    intro n hn _
    simp [collapseAux, Nat.min_eq_left hn]
  | cons c rest IH =>
    intro n hn h
    by_cases hc : c = '\n'
    · subst hc
      have hn1 : n + 1 ≤ 2 := by
        by_contra hcon
        have hn2 : n = 2 := by omega
        subst hn2
        apply h
        rw [show List.replicate 2 '\n' ++ '\n' :: rest = nl3 ++ rest from rfl]
        exact (List.prefix_append nl3 rest).isInfix
      rw [replicate_cons_eq] at h
      have heq : collapseAux n ('\n' :: rest) = collapseAux (n + 1) rest := by
        simp [collapseAux]
      rw [heq, IH (n + 1) hn1 h, replicate_cons_eq]
    · simp only [collapseAux, if_neg hc]
      rw [Nat.min_eq_left hn]
      have hrest : ¬ nl3 <:+: (List.replicate 0 '\n' ++ rest) := by
        simp only [List.replicate, List.nil_append]
        intro hr
        exact h (hr.trans
          (((List.suffix_cons c rest).trans (List.suffix_append _ _)).isInfix))
      rw [IH 0 (by omega) hrest]
      simp

lemma dropWhile_twice {α : Type} (p : α → Bool) (l : List α) :
    (l.dropWhile p).dropWhile p = l.dropWhile p := by
  induction l with
  | nil => rfl
  | cons c l IH =>
    by_cases h : p c
    · simp [List.dropWhile_cons, h, IH]
    · simp [List.dropWhile_cons, h]

lemma length_dropWhile {α : Type} (p : α → Bool) (l : List α) :
    (l.dropWhile p).length ≤ l.length := by
  induction l with
  | nil => simp
  | cons c l IH =>
    by_cases h : p c
    · simp only [List.dropWhile_cons, h, if_true]
      exact Nat.le_trans IH (by simp)
    · simp [List.dropWhile_cons, h]

lemma trimR_prefix_self (s : Str) : trimR s <+: s := by
  unfold trimR
  have h2 := List.reverse_prefix.mpr (List.dropWhile_suffix (l := s.reverse) isWs)
  rwa [List.reverse_reverse] at h2

lemma trimL_of_trimmed {s : Str} (h : trimL s = s) : trimL (trimR s) = trimR s := by
  cases htr : trimR s with
  | nil => rfl
  | cons a t =>
    obtain ⟨tl, htl⟩ := trimR_prefix_self s
    rw [htr] at htl
    have ha : isWs a = false := by
      by_contra hcon
      rw [Bool.not_eq_false] at hcon
      have hdw : trimL s = List.dropWhile isWs (t ++ tl) := by
        rw [← htl]
        simp [trimL, List.dropWhile_cons, hcon]
      have hlen : (trimL s).length ≤ (t ++ tl).length := by
        rw [hdw]; exact length_dropWhile isWs (t ++ tl)
      rw [h, ← htl] at hlen
      simp at hlen
    simp [trimL, List.dropWhile_cons, ha]

lemma trimR_idem (s : Str) : trimR (trimR s) = trimR s := by
  show ((trimR s).reverse.dropWhile isWs).reverse = trimR s
  unfold trimR
  rw [List.reverse_reverse, dropWhile_twice]

lemma trim_idem (s : Str) : trim (trim s) = trim s := by
  show trimR (trimL (trimR (trimL s))) = trimR (trimL s)
  have h0 : trimL (trimL s) = trimL s := dropWhile_twice isWs s
  rw [trimL_of_trimmed h0, trimR_idem]

lemma trim_infix_self (s : Str) : trim s <:+: s :=
  (trimR_prefix_self (trimL s)).isInfix.trans (List.dropWhile_suffix isWs).isInfix

lemma uniqAux_chain : ∀ (l : List Str) (p : Str),
    List.Chain' (· ≠ ·) (p :: uniqAux p l) := by
  intro l
  induction l with
  | nil => intro p; simp [uniqAux]
  | cons y ys IH =>
    intro p
    by_cases h : y = p
    · subst h
      simp only [uniqAux, if_pos rfl]
      exact IH y
    · simp only [uniqAux, if_neg h]
      exact List.chain'_cons.mpr ⟨Ne.symm h, IH y⟩

lemma uniqSorted_chain (l : List Str) : List.Chain' (· ≠ ·) (uniqSorted l) := by
  cases l with
  | nil => simp [uniqSorted]
  | cons x xs => exact uniqAux_chain xs x

lemma flattenHasMem {x : Str} : ∀ {L : List Str}, x ∈ L → x <:+: L.flatten := by
  intro L
  induction L with
  | nil => intro h; simp at h
  | cons y ys IH =>
    intro h
    rcases List.mem_cons.mp h with rfl | h'
    · rw [List.flatten_cons]
      exact (List.prefix_append x ys.flatten).isInfix
    · rw [List.flatten_cons]
      exact (IH h').trans (List.suffix_append y ys.flatten).isInfix

lemma insertBucket_self (acc : List (Str × List Changeset)) (k : Str) (c : Changeset) :
    ∃ p ∈ insertBucket acc k c, c ∈ p.2 := by
  induction acc with
  | nil => exact ⟨(k, [c]), by simp [insertBucket], by simp⟩
  | cons q rest IH =>
    obtain ⟨k0, items⟩ := q
    by_cases hk : k0 = k
    · exact ⟨(k0, items ++ [c]), by simp [insertBucket, hk], by simp⟩
    · obtain ⟨p, hp, hcp⟩ := IH
      refine ⟨p, ?_, hcp⟩
      simp only [insertBucket, if_neg hk]
      exact List.mem_cons_of_mem _ hp

lemma insertBucket_mono {c : Changeset} (acc : List (Str × List Changeset))
    (k : Str) (x : Changeset) (h : ∃ p ∈ acc, c ∈ p.2) :
    ∃ p ∈ insertBucket acc k x, c ∈ p.2 := by
  induction acc with
  | nil => simp at h
  | cons q rest IH =>
    obtain ⟨k0, items⟩ := q
    obtain ⟨p, hp, hcp⟩ := h
    rcases List.mem_cons.mp hp with rfl | hp'
    · by_cases hk : k0 = k
      · refine ⟨(k0, items ++ [x]), by simp [insertBucket, hk], ?_⟩
        exact List.mem_append_left _ hcp
      · exact ⟨(k0, items), by simp [insertBucket, hk], hcp⟩
    · by_cases hk : k0 = k
      · refine ⟨p, ?_, hcp⟩
        simp only [insertBucket, if_pos hk]
        exact List.mem_cons_of_mem _ hp'
      · obtain ⟨p', hp'', hcp'⟩ := IH ⟨p, hp', hcp⟩
        refine ⟨p', ?_, hcp'⟩
        simp only [insertBucket, if_neg hk]
        exact List.mem_cons_of_mem _ hp''

lemma foldl_insert_mem {c : Changeset} :
    ∀ (cs : List Changeset) (acc : List (Str × List Changeset)),
      (c ∈ cs ∨ ∃ p ∈ acc, c ∈ p.2) →
      ∃ p ∈ cs.foldl (fun a x => insertBucket a (bucketKey x) x) acc, c ∈ p.2 := by
  intro cs
  induction cs with
  | nil =>
    intro acc h
    rcases h with h | h
    · simp at h
    · simpa using h
  | cons d cs IH =>
    intro acc h
    simp only [List.foldl_cons]
    apply IH
    rcases h with h | h
    · rcases List.mem_cons.mp h with rfl | h'
      · exact Or.inr (insertBucket_self acc _ _)
      · exact Or.inl h'
    · exact Or.inr (insertBucket_mono acc _ _ h)

lemma mem_bucketsOf {c : Changeset} {cs : List Changeset} (h : c ∈ cs) :
    ∃ p ∈ bucketsOf cs, c ∈ p.2 :=
  foldl_insert_mem cs [] (Or.inl h)

lemma splitPropsMain_of_no_marker : ∀ {s : Str},
    hasNlProps s = false → splitPropsMain s = none := by
  intro s
  induction s with
  | nil => intro _; rfl
  | cons c rest IH =>
    intro h
    simp only [hasNlProps, Bool.or_eq_false_iff] at h
    have hcond : ¬ (c = '\n' ∧ lowerStr (rest.take 5) = "props".toList ∧
        (rest.drop 5).takeWhile (· ≠ '\n') ≠ []) := by
      rintro ⟨h1, h2, -⟩
      simp [h1, h2] at h
    simp only [splitPropsMain, if_neg hcond]
    rw [IH h.2]

/-- C9: the blank-line collapsing operation (replace every run of three or
more consecutive newlines with exactly two) is idempotent: applying it
twice yields the same result as applying it once. -/
theorem collapse_idempotent (s : Str) : collapse (collapse s) = collapse s := by
  have h2 : ¬ nl3 <:+: (List.replicate 0 '\n' ++ collapse s) := by
    simp only [List.replicate, List.nil_append]
    exact collapseAux_no_nl3 s 0
  have h3 := collapseAux_of_no_nl3 (collapse s) 0 (by omega) h2
  simpa [collapse] using h3

/-- C5 counterexample: a description carrying two Fixes clauses refutes the
claimed invariant — the non-global `replace(/[\n|, ]Fixes(.*)/i, '')`
removes only the first one, so the description produced by extraction still
ends with the literal clause `Fixes #2`. -/
theorem desc_clause_counterexample :
    procDesc ("A\nFixes #1\nFixes #2").toList = ("A\nFixes #2").toList ∧
    ("Fixes #2").toList <:+ procDesc ("A\nFixes #1\nFixes #2").toList := by
  constructor
  · decide
  · decide

/-- C5 amended: for every extracted description the whitespace parts of the
invariant do hold — the final text contains no run of three consecutive
newlines and is stripped of leading and trailing whitespace — while only
the first Fixes, first See and first Props clauses are removed (the Props
clause regardless of how its name list parsed), so a later duplicate
clause may survive. -/
theorem desc_invariant_amended (s : Str) :
    ¬ nl3 <:+: procDesc s ∧ trim (procDesc s) = procDesc s := by
  constructor
  · intro h
    have h2 : nl3 <:+: collapse ((extractPropsMain (removeSee (removeFixes s))).2) :=
      h.trans (trim_infix_self _)
    exact collapseAux_no_nl3 _ 0 h2
  · show trim (trim (collapse _)) = trim (collapse _)
    exact trim_idem _

/-- C10: the main script's props regex `/\nProps(.*)./i` only fires on a
clause preceded by a newline: when no occurrence of `Props`
(case-insensitively) is immediately preceded by a newline character, the
extracted props list is empty and the removal step leaves the text
unchanged. -/
theorem props_requires_newline (s : Str) (h : hasNlProps s = false) :
    extractPropsMain s = ([], s) := by
  unfold extractPropsMain
  rw [splitPropsMain_of_no_marker h]

/-- C10 witness: a description beginning with `Props jane.` has no
newline-preceded marker, so extraction returns no props and keeps the text
unchanged. -/
theorem props_requires_newline_witness :
    hasNlProps ("Props jane.").toList = false ∧
    extractPropsMain ("Props jane.").toList = ([], ("Props jane.").toList) :=
  ⟨by decide, props_requires_newline ("Props jane.").toList (by decide)⟩

/-- C6: on `"Fixed the thing.\nProps jane, john for testing, bob."` the
variant script's props extraction and `cleanProps` name-list cleaning
yield exactly `["jane", "john", "bob"]` — the `for …` qualifier stripped,
the terminal period dropped, no empty tokens — and the remaining text
contains no `Props` substring. -/
theorem props_clean_example :
    (extractPropsAlt ("Fixed the thing.\nProps jane, john for testing, bob.").toList).1 =
      ["jane".toList, "john".toList, "bob".toList] ∧
    (extractPropsAlt ("Fixed the thing.\nProps jane, john for testing, bob.").toList).2 =
      ("Fixed the thing.\n").toList ∧
    ¬ ("Props").toList <:+:
      (extractPropsAlt ("Fixed the thing.\nProps jane, john for testing, bob.").toList).2 := by
  refine ⟨by decide, by decide, by decide⟩

/-- C1: extraction yields exactly one changeset per complete row pair, in
row order — element `i` is built from rows `2i` and `2i+1` and the output
ends exactly where the first incomplete pair begins — so the length is
always `⌊numRows/2⌋`; a trailing unpaired metadata row is silently dropped
while every earlier complete changeset is kept. -/
theorem extract_complete_pairs (rows : List Row) :
    (buildChangesets rows).length = rows.length / 2 ∧
    ∀ i : Nat, (buildChangesets rows)[i]? =
      match rows[2 * i]?, rows[2 * i + 1]? with
      | some r1, some r2 => some (mkChangeset r1 r2)
      | _, _ => none := by
  induction rows using buildChangesets.induct with
  | case1 r1 r2 rest IH =>
    refine ⟨?_, ?_⟩
    · have h1 := IH.1
      simp only [buildChangesets, List.length_cons]
      omega
    · intro i
      cases i with
      | zero => simp [buildChangesets]
      | succ j =>
        have h2 : 2 * (j + 1) = 2 * j + 1 + 1 := by ring
        have h3 : 2 * (j + 1) + 1 = (2 * j + 1) + 1 + 1 := by ring
        simp only [buildChangesets, h2, h3, List.getElem?_cons_succ]
        exact IH.2 j
  | case2 t ht =>
    have hb : buildChangesets t = [] := by
      cases t with
      | nil => rfl
      | cons a t' =>
        cases t' with
        | nil => rfl
        | cons b t'' => exact (ht a b t'' rfl).elim
    have hlen : t.length ≤ 1 := by
      cases t with
      | nil => simp
      | cons a t' =>
        cases t' with
        | nil => simp
        | cons b t'' => exact (ht a b t'' rfl).elim
    refine ⟨?_, ?_⟩
    · rw [hb]
      simp only [List.length_nil]
      omega
    · intro i
      rw [hb]
      have h4 : t[2 * i + 1]? = none := by
        rw [List.getElem?_eq_none]
        omega
      rw [h4]
      rcases t[2 * i]? with _ | r
      · simp
      · simp

/-- C2: the claim says empty `components` buckets under the literal string
`Misc`, matching the script's own `category = 'Misc'` fallback — but that
fallback is dead code, because `category` holds the `component` array and
JavaScript arrays (even empty ones) are truthy, so `!category` is never
true.  Two changesets with components `["Editor"]` and `[]` are bucketed
under the keys `"Editor"` and `""` (the array's string coercion), and the
second section is rendered with the bare heading `### `, never `Misc`. -/
theorem bucket_misc_dead :
    bucketKeys [eEditor, eNoComp] = ["Editor".toList, []] ∧
    ("Misc").toList ∉ bucketKeys [eEditor, eNoComp] ∧
    changesetOutput [eEditor, eNoComp] =
      ("### Editor\n* x [1] #11\n### \n* y [2] #\n").toList := by
  refine ⟨by decide, by decide, by decide⟩

/-- C3 counterexample: the collected contributors `["bob", "alice", "Bob"]`
do not reduce to two entries — `_.uniq(sorted, true)` compares adjacent
entries with strict `!==`, so the case variants `bob` and `Bob` both
survive and the deduplicated list has three entries. -/
theorem credit_dedup_counterexample :
    (uniqSorted (sortCI ["bob".toList, "alice".toList, "Bob".toList])).length = 3 ∧
    ¬ (uniqSorted (sortCI ["bob".toList, "alice".toList, "Bob".toList])).length = 2 := by
  refine ⟨by decide, by decide⟩

/-- C3 amended: the credit list is sorted case-insensitively (stable), then
deduplicated by strict equality of adjacent entries, so only
identically-cased neighbours collapse and adjacent survivors are always
distinct; the collected contributors `["bob", "alice", "Bob"]` reduce to
the three entries `alice`, `bob`, `Bob` and render as
`Thanks to @alice, @bob, and @Bob for their contributions!`. -/
theorem credit_dedup_amended :
    uniqSorted (sortCI ["bob".toList, "alice".toList, "Bob".toList]) =
      ["alice".toList, "bob".toList, "Bob".toList] ∧
    propsLine (uniqSorted (sortCI ["bob".toList, "alice".toList, "Bob".toList])) =
      ("Thanks to @alice, @bob, and @Bob for their contributions!").toList ∧
    ∀ l : List Str, List.Chain' (· ≠ ·) (uniqSorted l) :=
  ⟨by decide, by decide, uniqSorted_chain⟩

/-- C4 counterexample: with the single contributor `Alice` the credit line
is not the claimed `Thanks to @Alice for their contributions!` — the
script always formats both `%s` slots, so the first slot is empty and the
`, and` remains. -/
theorem credit_single_counterexample :
    propsOutput [cAlice] =
      ("Thanks to @, and @Alice for their contributions!").toList ∧
    propsOutput [cAlice] ≠
      ("Thanks to @Alice for their contributions!").toList := by
  refine ⟨by decide, by decide⟩

/-- C4 amended: when the deduplicated contributor list has exactly one
entry the rendered credit line is `Thanks to @, and @{that one} for their
contributions!` — an empty handle before the dangling `, and` — and in
particular a single changeset with author `Alice` and no props renders
`Thanks to @, and @Alice for their contributions!`. -/
theorem credit_single_amended :
    (∀ a : Str, propsLine [a] =
      ("Thanks to @, and @").toList ++ a ++ (" for their contributions!").toList) ∧
    propsOutput [cAlice] =
      ("Thanks to @, and @Alice for their contributions!").toList := by
  constructor
  · intro a
    have h1 : withoutAll [a] a = [] := by simp [withoutAll]
    simp only [propsLine, lastD, h1, joinList]
    rfl
  · decide

/-- C7: a failed fetch for an individual referenced issue is skipped
without raising — here issue 101 errors while 102 resolves to Editor: the
failing changeset keeps an empty `component`, the other changeset is
resolved and rendered, and the whole run renders both entries.  But the
claim's final clause is wrong on the code: the empty-component changeset
is bucketed under the key `""` (heading `### `), never under `Misc`,
because the `'Misc'` fallback is dead code (arrays are truthy). -/
theorem resolve_error_skip :
    resolveComponents fetchOne [cFail, cOk] =
      [cFail, { cOk with component := ["Editor".toList] }] ∧
    bucketKeys (resolveComponents fetchOne [cFail, cOk]) = [[], "Editor".toList] ∧
    ("Misc").toList ∉ bucketKeys (resolveComponents fetchOne [cFail, cOk]) ∧
    changesetOutput (resolveComponents fetchOne [cFail, cOk]) =
      ("### \n* p [3] #101\n### Editor\n* q [4] #102\n").toList := by
  refine ⟨by decide, by decide, by decide, by decide⟩

/-- C8: every changeset of a run appears in the rendered report with the
list entry `* {description} {revision} #{related joined by ", #"}`, and
when `related` is empty that entry still ends in the bare `#` reference
segment with an empty tail. -/
theorem render_entry_form (cs : List Changeset) (c : Changeset) (h : c ∈ cs) :
    entryLine c <:+: changesetOutput cs ∧
    (c.related = [] →
      entryLine c = ("* ").toList ++ trim c.description ++ (" ").toList ++
        c.revision ++ (" #").toList ++ ("\n").toList) := by
  constructor
  · obtain ⟨p, hp, hcp⟩ := mem_bucketsOf h
    have h1 : entryLine c <:+: (p.2.map entryLine).flatten :=
      flattenHasMem (List.mem_map_of_mem entryLine hcp)
    have h2 : entryLine c <:+: renderBucket p := by
      unfold renderBucket
      exact h1.trans (List.suffix_append _ _).isInfix
    exact h2.trans (flattenHasMem (List.mem_map_of_mem renderBucket hp))
  · intro hrel
    simp [entryLine, hrel, joinList]

/-- C8 witness: the concrete changeset `cBare` has an empty `related` list;
its entry appears in the rendered report of the one-changeset run and ends
in a bare `#`. -/
theorem render_entry_form_witness :
    cBare ∈ [cBare] ∧
    (entryLine cBare <:+: changesetOutput [cBare] ∧
      (cBare.related = [] →
        entryLine cBare = ("* ").toList ++ trim cBare.description ++ (" ").toList ++
          cBare.revision ++ (" #").toList ++ ("\n").toList)) :=
  ⟨List.mem_singleton.mpr rfl,
    render_entry_form [cBare] cBare (List.mem_singleton.mpr rfl)⟩
